import Mathlib

/-!
# Verification of the deep_pipe batch-iteration and grid patch pipeline

Shallow embedding of the core of `dpipe` (batch_iter/pipeline.py,
medim/grid.py, medim/itertools.py, predict/shape.py) together with proofs
of the specified properties.

Arrays are modelled as `List`s; numeric array contents as `ℚ`; numpy-style
fallible operations return `Except String _`.
-/

set_option autoImplicit false

namespace DPipe

universe u v

/-! ## Grid boxes: `medim/grid.py`

`get_boxes(shape, box_size, stride, axes=None, valid)` computes
`final_shape = shape_after_full_convolution(...)` and then, for every
multi-index `start` in `np.ndindex(*final_shape)`, yields the box
`[start * stride, min(start * stride + box_size, shape))`.
We model the `axes = None` case, where `box_size` and `stride` are
broadcast over all axes, so all three parameters are per-axis lists.
-/

/-- Modelled from the spec: `shape_after_full_convolution` (in the missing
`medim/shape_utils.py`) gives, per axis, the number of sliding-window
positions: with `valid = true` "only boxes entirely within bounds are
yielded (trailing partial windows dropped)"; with `valid = false` "the
final box per axis is clipped to the array boundary", i.e. the count is
the ceiling analogue of the valid count. -/
def numBoxes (shape box stride : ℕ) (valid : Bool) : ℕ :=
  if valid then
    if box ≤ shape then (shape - box) / stride + 1 else 0
  else
    if box ≤ shape then (shape - box + stride - 1) / stride + 1 else 1

/-- `np.ndindex(*dims)`: all multi-indices of `dims` in row-major order. -/
def ndindex : List ℕ → List (List ℕ)
  | [] => [[]]
  | n :: rest => (List.range n).flatMap (fun i => (ndindex rest).map (i :: ·))

/-- A box is a pair (start, stop) of per-axis coordinates
(`make_box_([start, stop])`). -/
def get_boxes (shape box_size stride : List ℕ) (valid : Bool) :
    List (List ℕ × List ℕ) :=
  let final_shape :=
    (shape.zip (box_size.zip stride)).map
      (fun p => numBoxes p.1 p.2.1 p.2.2 valid)
  (ndindex final_shape).map (fun idx =>
    let start := idx.zipWith (· * ·) stride
    (start, (start.zipWith (· + ·) box_size).zipWith min shape))

/-- One-dimensional instance of `get_boxes` (shape, box and stride are
scalars); boxes are plain (start, stop) pairs. -/
def get_boxes1 (shape box stride : ℕ) (valid : Bool) : List (ℕ × ℕ) :=
  (List.range (numBoxes shape box stride valid)).map
    (fun i => (i * stride, min (i * stride + box) shape))

theorem get_boxes_one_dim (shape box stride : ℕ) (valid : Bool) :
    get_boxes [shape] [box] [stride] valid =
      (get_boxes1 shape box stride valid).map (fun b => ([b.1], [b.2])) := by
  simp only [get_boxes, get_boxes1, ndindex, List.zip_cons_cons, List.zip_nil_right,
    List.map_cons, List.map_nil, List.flatMap]
  induction (numBoxes shape box stride valid) with
  | zero => simp
  | succ n ih =>
      simp only [List.range_succ, List.map_append, List.flatten_append, List.map_cons,
        List.map_nil, List.flatten_cons, List.flatten_nil] at *
      simp [ih]

example :
    get_boxes1 10 3 3 true = [(0, 3), (3, 6), (6, 9)] := by decide

example :
    get_boxes1 10 3 3 false = [(0, 3), (3, 6), (6, 9), (9, 10)] := by decide

/-! ## `zip_equal` and batch combination

`medim/itertools.py`: `zip_equal(*args)` collects `len(arg)` for every
sized argument, raises if they disagree, then repeatedly pulls one element
from every not-yet-exhausted iterable; a round that collects fewer than
`len(args)` elements ends the loop, and a non-empty final partial round is
an error.  `batch_iter/pipeline.py`: `combine_batches(inputs)` is
`tuple(zip_equal(*inputs))`.

All iterables here are (same-element-type) lists, so the variadic call is
a `List (List α)`.  The pull loop is written with explicit fuel; the
callers supply fuel larger than the total number of elements, which is
always enough (each productive round removes at least one element).
-/

/-- The `while True` loop of `zip_equal`: one round pulls `next(it)` from
every iterable that is not exhausted (`filterMap List.head?`); a round of
exactly `n = len(args)` elements is yielded, a round of `0` elements ends
cleanly, anything else means the iterables did not exhaust simultaneously. -/
def zipLoop {α : Type u} (n : ℕ) : ℕ → List (List α) → Except String (List (List α))
  | 0, _ => .error "out of fuel"
  | fuel + 1, its =>
    let result := its.filterMap List.head?
    if result.length = n then
      match zipLoop n fuel (its.map List.tail) with
      | .ok rows => .ok (result :: rows)
      | .error e => .error e
    else if result.length = 0 then .ok []
    else .error "The iterables did not exhaust simultaneously."

/-- `zip_equal(*args)` for sized arguments: empty argument tuple yields
nothing; otherwise the collected lengths must all agree, then the pull
loop runs. -/
def zip_equal {α : Type u} (args : List (List α)) : Except String (List (List α)) :=
  if args.isEmpty then .ok []
  else
    let lengths := args.map List.length
    if lengths.all (fun l => decide (l = lengths.headI)) then
      zipLoop args.length (lengths.sum + 1) args
    else .error "The arguments have different lengths."

/-- `combine_batches(inputs) = tuple(zip_equal(*inputs))`. -/
def combine_batches {α : Type u} (inputs : List (List α)) : Except String (List (List α)) :=
  zip_equal inputs

/-- Python's builtin variadic `zip`: truncates at the shortest iterable. -/
def pyZipGo {α : Type u} : ℕ → List (List α) → List (List α)
  | 0, _ => []
  | fuel + 1, its =>
    if its.all (fun l => !l.isEmpty) then
      its.filterMap List.head? :: pyZipGo fuel (its.map List.tail)
    else []

/-- `list(zip(*args))` over lists. -/
def pyZip {α : Type u} (args : List (List α)) : List (List α) :=
  if args.isEmpty then [] else pyZipGo ((args.map List.length).sum + 1) args

/-- The transpose of a rectangular list of `k`-element rows, produced the
way the pull loop produces it: `k` rounds of heads. -/
def transposeRect {α : Type u} : ℕ → List (List α) → List (List α)
  | 0, _ => []
  | k + 1, args => args.filterMap List.head? :: transposeRect k (args.map List.tail)

/-- The claimed round-trip expression
`combine_batches(list(zip(*combine_batches(items))))`. -/
def roundTripExpr {α : Type u} (items : List (List α)) : Except String (List (List α)) :=
  match combine_batches items with
  | .ok t => combine_batches (pyZip t)
  | .error e => .error e

section TransposeLemmas

variable {α : Type u} {β : Type v}

theorem getD_tail (l : List α) (i : ℕ) (d : α) :
    l.tail.getD i d = l.getD (i + 1) d := by
  cases l with
  | nil => simp [List.getD]
  | cons a as => simp [List.getD_cons_succ]

theorem filterMap_head_rect (d : α) (args : List (List α))
    (h : ∀ r ∈ args, r ≠ []) :
    args.filterMap List.head? = args.map (fun r => r.getD 0 d) := by
  induction args with
  | nil => rfl
  | cons a as ih =>
      have ha : a ≠ [] := h a (by simp)
      cases a with
      | nil => exact absurd rfl ha
      | cons x xs =>
          simp only [List.filterMap_cons, List.head?, List.map_cons, List.getD_cons_zero]
          exact congrArg _ (ih (fun r hr => h r (by simp [hr])))

theorem transposeRect_eq (d : α) :
    ∀ (k : ℕ) (args : List (List α)), (∀ r ∈ args, r.length = k) →
      transposeRect k args =
        (List.range k).map (fun i => args.map (fun r => r.getD i d)) := by
  intro k
  induction k with
  | zero => intro args _; simp [transposeRect]
  | succ k ih =>
      intro args h
      have hne : ∀ r ∈ args, r ≠ [] := by
        intro r hr
        have := h r hr
        intro hnil
        simp [hnil] at this
      have htails : ∀ r ∈ args.map List.tail, r.length = k := by
        intro r hr
        rcases List.mem_map.1 hr with ⟨s, hs, rfl⟩
        have := h s hs
        simp [List.length_tail, this]
      calc transposeRect (k + 1) args
          = args.filterMap List.head? :: transposeRect k (args.map List.tail) := rfl
        _ = args.map (fun r => r.getD 0 d) ::
              (List.range k).map (fun i => (args.map List.tail).map (fun r => r.getD i d)) := by
            rw [filterMap_head_rect d args hne, ih _ htails]
        _ = (List.range (k + 1)).map (fun i => args.map (fun r => r.getD i d)) := by
            rw [List.range_succ_eq_map, List.map_cons, List.map_map]
            congr 1
            refine List.map_congr_left fun i _ => ?_
            rw [List.map_map]
            exact List.map_congr_left fun r _ => getD_tail r i d

theorem range_map_getD (d : α) (l : List α) :
    (List.range l.length).map (fun i => l.getD i d) = l := by
  induction l with
  | nil => simp
  | cons a as ih =>
      rw [List.length_cons, List.range_succ_eq_map, List.map_cons, List.map_map,
        List.getD_cons_zero]
      have hmap : (List.range as.length).map ((fun i => (a :: as).getD i d) ∘ Nat.succ)
          = (List.range as.length).map (fun i => as.getD i d) :=
        List.map_congr_left fun i _ => by simp [Function.comp, List.getD_cons_succ]
      rw [hmap, ih]

theorem getD_map (f : α → β) (d : β) (d' : α) :
    ∀ (l : List α) (j : ℕ), j < l.length → (l.map f).getD j d = f (l.getD j d') := by
  intro l
  induction l with
  | nil => intro j hj; simp at hj
  | cons a as ih =>
      intro j hj
      cases j with
      | zero => simp
      | succ j =>
          simp only [List.map_cons, List.getD_cons_succ]
          exact ih j (by simpa using hj)

theorem transposeRect_length (k : ℕ) (args : List (List α)) :
    (transposeRect k args).length = k := by
  induction k generalizing args with
  | zero => rfl
  | succ k ih => simp [transposeRect, ih]

theorem transposeRect_rows (d : α) (k : ℕ) (args : List (List α))
    (h : ∀ r ∈ args, r.length = k) :
    ∀ row ∈ transposeRect k args, row.length = args.length := by
  rw [transposeRect_eq d k args h]
  intro row hrow
  rcases List.mem_map.1 hrow with ⟨i, _, rfl⟩
  simp

theorem transpose_transpose (d : α) (k : ℕ) (args : List (List α))
    (h : ∀ r ∈ args, r.length = k) :
    transposeRect args.length (transposeRect k args) = args := by
  have hrows := transposeRect_rows d k args h
  rw [transposeRect_eq d args.length _ hrows]
  rw [transposeRect_eq d k args h]
  have hstep : ∀ j ∈ List.range args.length,
      ((List.range k).map (fun i => args.map (fun r => r.getD i d))).map
          (fun r => r.getD j d) = args.getD j [] := by
    intro j hj
    have hj' : j < args.length := List.mem_range.1 hj
    rw [List.map_map]
    have hinner : ∀ i ∈ List.range k,
        (args.map (fun r => r.getD i d)).getD j d = (args.getD j []).getD i d := by
      intro i _
      exact getD_map (fun r => r.getD i d) d [] args j hj'
    calc (List.range k).map ((fun r => r.getD j d) ∘ fun i => args.map fun r => r.getD i d)
        = (List.range k).map (fun i => (args.getD j []).getD i d) :=
          List.map_congr_left hinner
      _ = args.getD j [] := by
          have hk : (args.getD j []).length = k := by
            have hmem : args.getD j [] ∈ args := by
              have he : args.getD j [] = args.get ⟨j, hj'⟩ := by
                rw [List.getD_eq_getElem?_getD, List.getElem?_eq_getElem hj']
                rfl
              rw [he]; exact args.get_mem j hj'
            exact h _ hmem
          rw [← hk]
          exact range_map_getD d _
  calc (List.range args.length).map
        (fun j => ((List.range k).map fun i => args.map fun r => r.getD i d).map
          fun r => r.getD j d)
      = (List.range args.length).map (fun j => args.getD j []) :=
        List.map_congr_left hstep
    _ = args := range_map_getD [] args

theorem filterMap_head_length (args : List (List α))
    (h : ∀ r ∈ args, r ≠ []) :
    (args.filterMap List.head?).length = args.length := by
  induction args with
  | nil => rfl
  | cons a as ih =>
      cases a with
      | nil => exact absurd rfl (h [] (by simp))
      | cons x xs =>
          simp only [List.filterMap_cons, List.head?, List.length_cons]
          exact congrArg Nat.succ (ih (fun r hr => h r (by simp [hr])))

theorem zipLoop_rect :
    ∀ (k : ℕ) (args : List (List α)) (fuel : ℕ), 0 < args.length →
      (∀ r ∈ args, r.length = k) → k < fuel →
      zipLoop args.length fuel args = .ok (transposeRect k args) := by
  intro k
  induction k with
  | zero =>
      intro args fuel hpos h hfuel
      obtain ⟨f, rfl⟩ : ∃ f, fuel = f + 1 := ⟨fuel - 1, by omega⟩
      have hempty : args.filterMap List.head? = [] := by
        rw [List.filterMap_eq_nil_iff]
        intro r hr
        have := h r hr
        cases r with
        | nil => rfl
        | cons a as => simp at this
      have h0 : ¬ ((args.filterMap List.head?).length = args.length) := by
        rw [hempty]
        simpa using hpos.ne
      simp only [zipLoop]
      rw [if_neg h0, hempty]
      simp [transposeRect]
  | succ k ih =>
      intro args fuel hpos h hfuel
      obtain ⟨f, rfl⟩ : ∃ f, fuel = f + 1 := ⟨fuel - 1, by omega⟩
      have hne : ∀ r ∈ args, r ≠ [] := by
        intro r hr hnil
        have := h r hr
        simp [hnil] at this
      have htails : ∀ r ∈ args.map List.tail, r.length = k := by
        intro r hr
        rcases List.mem_map.1 hr with ⟨s, hs, rfl⟩
        have := h s hs
        simp [List.length_tail, this]
      have hrec := ih (args.map List.tail) f (by simpa using hpos) htails (by omega)
      rw [List.length_map] at hrec
      simp only [zipLoop]
      rw [if_pos (filterMap_head_length args hne), hrec]
      rfl

theorem zip_equal_rect (k : ℕ) (args : List (List α))
    (hpos : 0 < args.length) (h : ∀ r ∈ args, r.length = k) :
    zip_equal args = .ok (transposeRect k args) := by
  have hne : ¬ args.isEmpty := by
    cases args with
    | nil => simp at hpos
    | cons a as => simp
  obtain ⟨a, as, rfl⟩ : ∃ a as, args = a :: as := by
    cases args with
    | nil => simp at hpos
    | cons a as => exact ⟨a, as, rfl⟩
  have hall : ((a :: as).map List.length).all
      (fun l => decide (l = ((a :: as).map List.length).headI)) = true := by
    simp only [List.all_eq_true, List.map_cons, List.headI]
    intro l hl
    simp only [List.mem_cons, List.mem_map] at hl
    have ha : a.length = k := h a (by simp)
    rcases hl with rfl | ⟨s, hs, rfl⟩
    · simp
    · have : s.length = k := h s (by simp [hs])
      simp [this, ha]
  have hsum : k ≤ ((a :: as).map List.length).sum := by
    have ha : a.length = k := h a (by simp)
    simp only [List.map_cons, List.sum_cons, ha]
    omega
  simp only [zip_equal, hne, Bool.false_eq_true, if_false, hall, if_pos, if_true]
  exact zipLoop_rect k (a :: as) _ hpos h (by omega)

theorem pyZipGo_rect :
    ∀ (k : ℕ) (args : List (List α)) (fuel : ℕ), 0 < args.length →
      (∀ r ∈ args, r.length = k) → k < fuel →
      pyZipGo fuel args = transposeRect k args := by
  intro k
  induction k with
  | zero =>
      intro args fuel hpos h hfuel
      obtain ⟨f, rfl⟩ : ∃ f, fuel = f + 1 := ⟨fuel - 1, by omega⟩
      obtain ⟨a, as, rfl⟩ : ∃ a as, args = a :: as := by
        cases args with
        | nil => simp at hpos
        | cons a as => exact ⟨a, as, rfl⟩
      have ha : a = [] := by
        have := h a (by simp)
        cases a with
        | nil => rfl
        | cons x xs => simp at this
      simp [pyZipGo, ha, transposeRect]
  | succ k ih =>
      intro args fuel hpos h hfuel
      obtain ⟨f, rfl⟩ : ∃ f, fuel = f + 1 := ⟨fuel - 1, by omega⟩
      have hne : args.all (fun l => !l.isEmpty) = true := by
        rw [List.all_eq_true]
        intro r hr
        have := h r hr
        cases r with
        | nil => simp at this
        | cons x xs => simp
      have htails : ∀ r ∈ args.map List.tail, r.length = k := by
        intro r hr
        rcases List.mem_map.1 hr with ⟨s, hs, rfl⟩
        have := h s hs
        simp [List.length_tail, this]
      simp only [pyZipGo, hne, if_pos, if_true]
      rw [ih (args.map List.tail) f (by simpa using hpos) htails (by omega)]
      rfl

theorem pyZip_rect (k : ℕ) (args : List (List α))
    (hpos : 0 < args.length) (h : ∀ r ∈ args, r.length = k) :
    pyZip args = transposeRect k args := by
  obtain ⟨a, as, rfl⟩ : ∃ a as, args = a :: as := by
    cases args with
    | nil => simp at hpos
    | cons a as => exact ⟨a, as, rfl⟩
  have hsum : k ≤ ((a :: as).map List.length).sum := by
    have ha : a.length = k := h a (by simp)
    simp only [List.map_cons, List.sum_cons, ha]
    omega
  simp only [pyZip, List.isEmpty_cons, Bool.false_eq_true, if_false]
  exact pyZipGo_rect k (a :: as) _ hpos h (by omega)

end TransposeLemmas

/-- C4, counterexample: for `items = [(1,2),(3,4)]` the expression
`combine_batches(list(zip(*combine_batches(items))))` does *not* reproduce
`items`: it evaluates to the transpose `((1,3),(2,4))` again, because the
expression composes three transposes. -/
theorem combine_batches_roundTrip_counterexample :
    roundTripExpr [[1, 2], [3, 4]] ≠ .ok [[1, 2], [3, 4]] ∧
    roundTripExpr [[1, 2], [3, 4]] = .ok [[1, 3], [2, 4]] := by
  constructor
  · have h : roundTripExpr [[1, 2], [3, 4]] = .ok [[1, 3], [2, 4]] := rfl
    rw [h]
    intro hcontra
    have h2 := Except.ok.inj hcontra
    exact absurd h2 (by decide)
  · rfl

/-- C4 (amended): for every non-empty list `items` of equal-arity (arity
`k ≥ 1`) tuples, `combine_batches` returns the position-major transpose
(row `i` holds the `i`-th component of every input tuple), and the inner
round-trip `list(zip(*combine_batches(items)))` reproduces `items`; the
full expression `combine_batches(list(zip(*combine_batches(items))))`
therefore reproduces `combine_batches(items)` (the transpose), not
`items`. -/
theorem combine_batches_transpose_roundTrip {α : Type u} (d : α) :
    ∀ (items : List (List α)) (k : ℕ), items ≠ [] → 0 < k →
      (∀ r ∈ items, r.length = k) →
      combine_batches items = .ok (transposeRect k items) ∧
      (transposeRect k items).length = k ∧
      (∀ i, i < k →
        (transposeRect k items).getD i [] = items.map (fun r => r.getD i d)) ∧
      pyZip (transposeRect k items) = items ∧
      roundTripExpr items = combine_batches items := by
  intro items k hne hk h
  have hpos : 0 < items.length := by
    cases items with
    | nil => exact absurd rfl hne
    | cons a as => simp
  have h1 : combine_batches items = .ok (transposeRect k items) :=
    zip_equal_rect k items hpos h
  have h2 : (transposeRect k items).length = k := transposeRect_length k items
  have h3 : ∀ i, i < k →
      (transposeRect k items).getD i [] = items.map (fun r => r.getD i d) := by
    intro i hi
    rw [transposeRect_eq d k items h]
    rw [getD_map (fun i => items.map fun r => r.getD i d) [] 0 _ i (by simpa using hi)]
    have hr : (List.range k).getD i 0 = i := by
      rw [List.getD_eq_getElem?_getD, List.getElem?_range hi]
      rfl
    rw [hr]
  have h4 : pyZip (transposeRect k items) = items := by
    have hrows := transposeRect_rows d k items h
    have hTpos : 0 < (transposeRect k items).length := by rw [h2]; exact hk
    rw [pyZip_rect items.length (transposeRect k items) hTpos hrows]
    exact transpose_transpose d k items h
  refine ⟨h1, h2, h3, h4, ?_⟩
  unfold roundTripExpr
  rw [h1]
  show combine_batches (pyZip (transposeRect k items)) = Except.ok (transposeRect k items)
  rw [h4, h1]

/-- C4, witness: the amended theorem applied to `items = [(1,2),(3,4)]`,
`k = 2`. -/
theorem combine_batches_transpose_roundTrip_witness :
    combine_batches [[1, 2], [3, 4]] = .ok (transposeRect 2 [[1, 2], [3, 4]]) ∧
    (transposeRect 2 [[1, 2], [3, 4]]).length = 2 ∧
    (∀ i, i < 2 → (transposeRect 2 [[1, 2], [3, 4]]).getD i [] =
      [[1, 2], [3, 4]].map (fun r => r.getD i 0)) ∧
    pyZip (transposeRect 2 [[1, 2], [3, 4]]) = [[1, 2], [3, 4]] ∧
    roundTripExpr [[1, 2], [3, 4]] = combine_batches [[1, 2], [3, 4]] :=
  combine_batches_transpose_roundTrip 0 [[1, 2], [3, 4]] 2 (by decide) (by decide)
    (by decide)

/-! ## The Dynamic Combiner stage and the `Infinite` constructor

`batch_iter/pipeline.py`, `Infinite._make_combiner`: the combiner worker
keeps one in-progress `chunk`; `process_data(item)` appends when the chunk
is empty or `should_add(chunk, item)` holds, otherwise it puts the chunk on
the output queue and starts a new chunk `[item]`.  For an integer
`batch_size`, `should_add(chunk, item) = len(chunk) < batch_size`.
-/

/-- The combiner stage run over a finite stream of items: the result is the
list of chunks put on the output queue (in order) together with the final
in-progress chunk still buffered. -/
def runCombiner {α : Type u} (should_add : List α → α → Bool) :
    List α → List α → List (List α) × List α
  | chunk, [] => ([], chunk)
  | chunk, item :: rest =>
    if chunk.isEmpty || should_add chunk item then
      runCombiner should_add (chunk ++ [item]) rest
    else
      let r := runCombiner should_add [item] rest
      (chunk :: r.1, r.2)

/-- The polymorphic `batch_size` constructor argument: an `int`, a callable
`should_add` predicate, or anything else. -/
inductive BatchSizeArg (α : Type u) where
  | int (n : ℤ)
  | callable (f : List α → α → Bool)
  | other

/-- `Infinite._make_combiner(batch_size)`: a callable is used as
`should_add` directly; an `int` must be positive (`ValueError` otherwise)
and yields the fixed-size predicate; anything else is a `TypeError`. -/
def make_combiner {α : Type u} : BatchSizeArg α → Except String (List α → α → Bool)
  | .callable f => .ok f
  | .int n =>
      if n ≤ 0 then .error "batch_size must be greater than zero."
      else .ok (fun chunk _ => decide (chunk.length < n.toNat))
  | .other => .error "batch_size must be either int or callable."

/-- The configuration an `Infinite` instance is constructed with. -/
structure InfiniteCfg (α : Type u) where
  batches_per_epoch : ℕ
  should_add : List α → α → Bool

/-- `Infinite.__init__`: a non-positive `batches_per_epoch` raises
`ValueError` first; assembling the pipeline then calls
`_make_combiner(batch_size)`, so its `ValueError`/`TypeError` are also
raised inside the constructor, before any background worker exists. -/
def infiniteInit {α : Type u} (batch_size : BatchSizeArg α) (batches_per_epoch : ℤ) :
    Except String (InfiniteCfg α) :=
  if batches_per_epoch ≤ 0 then
    .error "Expected a positive amount of batches per epoch"
  else
    match make_combiner batch_size with
    | .ok f => .ok ⟨batches_per_epoch.toNat, f⟩
    | .error e => .error e

theorem runCombiner_fixed_emits {α : Type u} (n : ℕ) (hn : 0 < n) :
    ∀ (items : List α) (chunk : List α), chunk.length ≤ n →
      ∀ out ∈ (runCombiner (fun c _ => decide (c.length < n)) chunk items).1,
        out.length = n := by
  intro items
  induction items with
  | nil =>
      intro chunk _ out hout
      simp [runCombiner] at hout
  | cons item rest ih =>
      intro chunk hchunk out hout
      by_cases hcond : (chunk.isEmpty || decide (chunk.length < n)) = true
      · rw [runCombiner, if_pos hcond] at hout
        have hor : chunk.isEmpty = true ∨ chunk.length < n := by
          cases h1 : chunk.isEmpty with
          | true => exact Or.inl rfl
          | false =>
              right
              have h2 : decide (chunk.length < n) = true := by
                cases h2 : decide (chunk.length < n) with
                | true => rfl
                | false => rw [h1, h2] at hcond; exact absurd hcond (by simp)
              exact of_decide_eq_true h2
        have hlen : (chunk ++ [item]).length ≤ n := by
          rcases hor with he | hlt
          · have hc : chunk = [] := by
              cases chunk with
              | nil => rfl
              | cons a as => simp at he
            simp [hc]
            omega
          · simp only [List.length_append, List.length_cons, List.length_nil]
            omega
        exact ih (chunk ++ [item]) hlen out hout
      · rw [runCombiner, if_neg hcond] at hout
        have hne : chunk.isEmpty = false := by
          cases hie : chunk.isEmpty with
          | false => rfl
          | true => exact absurd (by rw [hie]; rfl) hcond
        have hge : ¬ chunk.length < n := by
          intro hlt
          exact hcond (by simp [decide_eq_true hlt])
        simp only [List.mem_cons] at hout
        rcases hout with rfl | hout
        · omega
        · exact ih [item] (by simpa using hn) out hout

/-- C2: for the combiner with integer `batch_size = n > 0`, every chunk
emitted downstream has length exactly `n` (a chunk is closed exactly when
it reaches the target size); concretely, `batch_size = 3` on the item
stream `[1..7]` emits `[1,2,3]` and `[4,5,6]` while `7` stays buffered in
the in-progress chunk. -/
theorem combiner_fixed_size :
    (∀ (n : ℕ) (items : List ℕ), 0 < n →
      ∀ out ∈ (runCombiner (fun c (_ : ℕ) => decide (c.length < n)) [] items).1,
        out.length = n) ∧
    runCombiner (fun c (_ : ℕ) => decide (c.length < 3)) [] [1, 2, 3, 4, 5, 6, 7] =
      ([[1, 2, 3], [4, 5, 6]], [7]) := by
  constructor
  · intro n items hn out hout
    exact runCombiner_fixed_emits n hn items [] (by simp) out hout
  · decide

/-- C2, witness: the general part applied to `n = 3`,
`items = [1,2,3,4,5,6,7]` and the emitted chunk `[1,2,3]`. -/
theorem combiner_fixed_size_witness : ([1, 2, 3] : List ℕ).length = 3 :=
  combiner_fixed_size.1 3 [1, 2, 3, 4, 5, 6, 7] (by decide) [1, 2, 3] (by decide)

/-- C6: configuration errors surface at construction time: non-positive
`batches_per_epoch` errors for every `batch_size`; integer `batch_size ≤ 0`
errors; a `batch_size` that is neither `int` nor callable errors; and a
valid configuration constructs successfully (so nothing is deferred to
background workers). -/
theorem infiniteInit_validation :
    (∀ (bpe : ℤ) (bs : BatchSizeArg ℕ), bpe ≤ 0 →
      ∃ e, infiniteInit bs bpe = .error e) ∧
    (∀ (bpe n : ℤ), n ≤ 0 →
      ∃ e, infiniteInit (.int n : BatchSizeArg ℕ) bpe = .error e) ∧
    (∀ bpe : ℤ, ∃ e, infiniteInit (.other : BatchSizeArg ℕ) bpe = .error e) ∧
    (∀ (bpe n : ℤ), 0 < bpe → 0 < n →
      ∃ cfg, infiniteInit (.int n : BatchSizeArg ℕ) bpe = .ok cfg) := by
  refine ⟨?_, ?_, ?_, ?_⟩
  · intro bpe bs hbpe
    exact ⟨_, by rw [infiniteInit, if_pos hbpe]⟩
  · intro bpe n hn
    by_cases hbpe : bpe ≤ 0
    · exact ⟨_, by rw [infiniteInit, if_pos hbpe]⟩
    · refine ⟨"batch_size must be greater than zero.", ?_⟩
      rw [infiniteInit, if_neg hbpe]
      have hmk : make_combiner (.int n : BatchSizeArg ℕ)
          = .error "batch_size must be greater than zero." := by
        simp only [make_combiner]
        rw [if_pos hn]
      rw [hmk]
  · intro bpe
    by_cases hbpe : bpe ≤ 0
    · exact ⟨_, by rw [infiniteInit, if_pos hbpe]⟩
    · exact ⟨_, by rw [infiniteInit, if_neg hbpe]; rfl⟩
  · intro bpe n hbpe hn
    refine ⟨⟨bpe.toNat, fun chunk _ => decide (chunk.length < n.toNat)⟩, ?_⟩
    rw [infiniteInit, if_neg (by omega)]
    have hmk : make_combiner (.int n : BatchSizeArg ℕ)
        = .ok (fun chunk _ => decide (chunk.length < n.toNat)) := by
      simp only [make_combiner]
      rw [if_neg (by omega)]
    rw [hmk]

/-- C6, witness: `batches_per_epoch = 0` with integer `batch_size = 3`
fails at construction. -/
theorem infiniteInit_validation_witness :
    ∃ e, infiniteInit (.int 3 : BatchSizeArg ℕ) 0 = .error e :=
  infiniteInit_validation.1 0 (.int 3) (by decide)

/-! ## The `Infinite` orchestrator: epochs and shutdown -/

/-- Modelled from the spec: a running `pdp.Pipeline` (the pdp library is an
external collaborator, "a chain of cooperating stages ... connected by
bounded-capacity queues").  Only its behaviour observable from
`Infinite` is modelled: the stream of batches it produces (`output i =
none` from the point where the underlying pipeline is exhausted or
closed), the consumer's read position, and the `pipeline_active` flag;
`__enter__` starts background execution and `__exit__` stops all workers
and never raises (hence both are total functions). -/
structure PdpPipeline (β : Type u) where
  output : ℕ → Option β
  pos : ℕ
  pipeline_active : Bool

def PdpPipeline.enter {β : Type u} (p : PdpPipeline β) : PdpPipeline β :=
  { p with pipeline_active := true }

def PdpPipeline.exit {β : Type u} (p : PdpPipeline β) : PdpPipeline β :=
  { p with pipeline_active := false }

/-- The `Infinite` orchestrator: `batches_per_epoch` plus the assembled
pipeline. -/
structure Infinite (β : Type u) where
  batches_per_epoch : ℕ
  pipeline : PdpPipeline β

/-- `itertools.islice(it, n)` consumed into a list: at most `n` pulls,
stopping early when the iterator is exhausted. -/
def pyIslice {β : Type u} (f : ℕ → Option β) : ℕ → ℕ → List β
  | _, 0 => []
  | pos, n + 1 =>
    match f pos with
    | none => []
    | some b => b :: pyIslice f (pos + 1) n

/-- `Infinite.__call__`: if the pipeline is not active, `__enter__` it;
return `islice(self.pipeline, self.batches_per_epoch)` (here: the list of
consumed batches together with the advanced pipeline state). -/
def Infinite.call {β : Type u} (it : Infinite β) : Infinite β × List β :=
  let p := if it.pipeline.pipeline_active then it.pipeline else it.pipeline.enter
  let batches := pyIslice p.output p.pos it.batches_per_epoch
  ({ it with pipeline := { p with pos := p.pos + batches.length } }, batches)

/-- `Infinite.close`: `self.__exit__(None, None, None)`, which exits the
wrapped pipeline. -/
def Infinite.close {β : Type u} (it : Infinite β) : Infinite β :=
  { it with pipeline := it.pipeline.exit }

theorem pyIslice_spec {β : Type u} (f : ℕ → Option β) :
    ∀ (n pos : ℕ),
      (pyIslice f pos n).length = n ∨
      ((pyIslice f pos n).length < n ∧ f (pos + (pyIslice f pos n).length) = none) := by
  intro n
  induction n with
  | zero => intro pos; exact Or.inl rfl
  | succ n ih =>
      intro pos
      cases hf : f pos with
      | none =>
          right
          constructor
          · simp [pyIslice, hf]
          · simp [pyIslice, hf]
      | some b =>
          rcases ih (pos + 1) with h | ⟨h1, h2⟩
          · left
            simp [pyIslice, hf, h]
          · right
            constructor
            · simp [pyIslice, hf]; omega
            · simp only [pyIslice, hf, List.length_cons]
              rw [show pos + (pyIslice f (pos + 1) n).length.succ
                  = pos + 1 + (pyIslice f (pos + 1) n).length by omega]
              exact h2

/-- C1: one epoch call yields exactly `batches_per_epoch` batches, or fewer
only when the pipeline's batch stream is exhausted/closed at the point
where iteration stopped; the call leaves the pipeline active (starting
background execution if it was not already active) and does not change
`batches_per_epoch`. -/
theorem infinite_call_epoch {β : Type u} (it : Infinite β) :
    (it.call.2.length = it.batches_per_epoch ∨
      (it.call.2.length < it.batches_per_epoch ∧
        it.pipeline.output (it.pipeline.pos + it.call.2.length) = none)) ∧
    it.call.1.pipeline.pipeline_active = true ∧
    it.call.1.batches_per_epoch = it.batches_per_epoch := by
  cases hb : it.pipeline.pipeline_active with
  | true =>
      refine ⟨?_, ?_, ?_⟩
      · simpa [Infinite.call, hb] using
          pyIslice_spec it.pipeline.output it.batches_per_epoch it.pipeline.pos
      · simp [Infinite.call, hb]
      · simp [Infinite.call, hb]
  | false =>
      refine ⟨?_, ?_, ?_⟩
      · simpa [Infinite.call, hb, PdpPipeline.enter] using
          pyIslice_spec it.pipeline.output it.batches_per_epoch it.pipeline.pos
      · simp [Infinite.call, hb, PdpPipeline.enter]
      · simp [Infinite.call, hb]

/-- C9: `close` is a total function (it cannot raise), it is idempotent,
and it requires nothing of the current state — closing twice, closing an
already-stopped pipeline, or closing an instance that was never entered
are all the same harmless operation. -/
theorem infinite_close_idempotent {β : Type u} (it : Infinite β) :
    it.close.close = it.close ∧
    it.close.pipeline.pipeline_active = false ∧
    (it.pipeline.pipeline_active = false → it.close.pipeline = it.pipeline.exit) := by
  refine ⟨rfl, rfl, fun _ => rfl⟩

/-! ## Properties of `get_boxes` -/

theorem getD_zipWith_min_le :
    ∀ (l s : List ℕ) (d : ℕ), (l.zipWith min s).getD d 0 ≤ s.getD d 0 := by
  intro l
  induction l with
  | nil => intro s d; simp [List.getD]
  | cons a as ih =>
      intro s d
      cases s with
      | nil => simp [List.getD]
      | cons b bs =>
          cases d with
          | zero => exact Nat.min_le_right a b
          | succ d => simpa [List.getD_cons_succ] using ih bs d

theorem getD_zipWith_mul :
    ∀ (l m : List ℕ) (d : ℕ), d < (l.zipWith (· * ·) m).length →
      (l.zipWith (· * ·) m).getD d 0 = l.getD d 0 * m.getD d 0 := by
  intro l
  induction l with
  | nil => intro m d hd; simp at hd
  | cons a as ih =>
      intro m d hd
      cases m with
      | nil => simp at hd
      | cons b bs =>
          cases d with
          | zero => simp
          | succ d =>
              simp only [List.zipWith_cons_cons, List.length_cons] at hd
              simpa [List.getD_cons_succ] using ih bs d (by omega)

/-- C10: every box yielded by `get_boxes`, for either value of `valid`, has
its stop equal to the elementwise `min(start + box_size, shape)`, its start
coordinates (non-negative) multiples of the per-axis stride, and every
stop coordinate within the corresponding extent of `shape`. -/
theorem get_boxes_in_bounds (shape box_size stride : List ℕ) (valid : Bool) :
    ∀ p ∈ get_boxes shape box_size stride valid,
      p.2 = (p.1.zipWith (· + ·) box_size).zipWith min shape ∧
      (∀ d, d < p.1.length → ∃ i, p.1.getD d 0 = i * stride.getD d 0) ∧
      (∀ d, p.2.getD d 0 ≤ shape.getD d 0) := by
  intro p hp
  rcases List.mem_map.1 hp with ⟨idx, _, rfl⟩
  refine ⟨rfl, ?_, ?_⟩
  · intro d hd
    exact ⟨idx.getD d 0, getD_zipWith_mul idx stride d hd⟩
  · intro d
    exact getD_zipWith_min_le _ shape d

/-- C10, witness: the invariant applied to the box `([0], [3])` of
`get_boxes([10], [3], [3], valid=True)`. -/
theorem get_boxes_in_bounds_witness :
    (([0], [3]) : List ℕ × List ℕ).2 =
      ((([0], [3]) : List ℕ × List ℕ).1.zipWith (· + ·) [3]).zipWith min [10] ∧
    (∀ d, d < (([0], [3]) : List ℕ × List ℕ).1.length →
      ∃ i, (([0], [3]) : List ℕ × List ℕ).1.getD d 0 = i * ([3] : List ℕ).getD d 0) ∧
    (∀ d, (([0], [3]) : List ℕ × List ℕ).2.getD d 0 ≤ ([10] : List ℕ).getD d 0) :=
  get_boxes_in_bounds [10] [3] [3] true ([0], [3]) (by decide)

/-- C5: `get_boxes((10,), 3, 3, valid=True)` yields exactly the boxes
`[0,3), [3,6), [6,9)`; with `valid=False` additionally the clipped box
`[9,10)`.  In general (one axis): with `valid=True` every yielded box is a
full window `[start, start+box)` lying inside the shape (trailing partial
windows are dropped), and with `valid=False` every yielded box is clipped
to the boundary, `stop = min(start + box, shape)`. -/
theorem get_boxes_example :
    get_boxes [10] [3] [3] true = [([0], [3]), ([3], [6]), ([6], [9])] ∧
    get_boxes [10] [3] [3] false =
      [([0], [3]), ([3], [6]), ([6], [9]), ([9], [10])] ∧
    (∀ s b st : ℕ, ∀ p ∈ get_boxes1 s b st true,
      p.2 = p.1 + b ∧ p.1 + b ≤ s) ∧
    (∀ s b st : ℕ, ∀ p ∈ get_boxes1 s b st false,
      p.2 = min (p.1 + b) s) := by
  refine ⟨by decide, by decide, ?_, ?_⟩
  · intro s b st p hp
    rcases List.mem_map.1 hp with ⟨i, hi, rfl⟩
    rw [List.mem_range] at hi
    by_cases hbs : b ≤ s
    · have hcount : numBoxes s b st true = (s - b) / st + 1 := by
        rw [numBoxes, if_pos rfl, if_pos hbs]
      rw [hcount] at hi
      have hile : i ≤ (s - b) / st := by omega
      have h1 : i * st ≤ (s - b) / st * st := Nat.mul_le_mul_right st hile
      have h2 : (s - b) / st * st ≤ s - b := Nat.div_mul_le_self _ _
      have h3 : i * st + b ≤ s := by omega
      exact ⟨by simpa using Nat.min_eq_left h3, h3⟩
    · have hcount : numBoxes s b st true = 0 := by
        rw [numBoxes, if_pos rfl, if_neg hbs]
      rw [hcount] at hi
      omega
  · intro s b st p hp
    rcases List.mem_map.1 hp with ⟨i, _, rfl⟩
    rfl

/-- C5, witness: the general `valid=True` clause applied to the first box
of `get_boxes1(10, 3, 3, valid=True)`. -/
theorem get_boxes_example_witness :
    ((0, 3) : ℕ × ℕ).2 = ((0, 3) : ℕ × ℕ).1 + 3 ∧ ((0, 3) : ℕ × ℕ).1 + 3 ≤ 10 :=
  get_boxes_example.2.2.1 10 3 3 (0, 3) (by decide)

/-! ## `divide` and `combine` over one axis

`medim/grid.py`: `divide` slices `x` at each box (default
`valid=False`); `combine` peeks the first patch, defaults `stride` to the
patch's shape, accumulates each patch additively into its box of a zero
`result` array while incrementing a `counts` array over the same box, and
finally returns `result / np.maximum(1, counts)`.  The iteration is
`zip_equal` over the lazy box generator and the patch sequence, neither of
which is sized, so a leftover on either side is the simultaneous-
exhaustion error; a patch that does not fit its slice is a numpy
broadcast error, raised at that iteration.  Array contents are `ℚ`.
-/

/-- `x[build_slices(start, stop)]` on one axis. -/
def sliceBox (x : List ℚ) (p : ℕ × ℕ) : List ℚ :=
  (x.drop p.1).take (p.2 - p.1)

/-- `divide(x, patch_size, stride, valid=False)` on one axis: one
sub-array of `x` per box, by slicing. -/
def divide1 (x : List ℚ) (patch stride : ℕ) : List (List ℚ) :=
  (get_boxes1 x.length patch stride false).map (sliceBox x)

/-- Elementwise addition of `p` onto the front of `r` (extra elements of
`p` beyond `r` are impossible in `combine`, whose boxes end within the
array). -/
def addLead {α : Type u} [Add α] : List α → List α → List α
  | r, [] => r
  | [], _ => []
  | v :: vs, q :: qs => (v + q) :: addLead vs qs

/-- `r[s : s + p.length] += p` on 1-D arrays. -/
def addSeg {α : Type u} [Add α] : List α → ℕ → List α → List α
  | r, 0, p => addLead r p
  | [], _ + 1, _ => []
  | v :: vs, s + 1, p => v :: addSeg vs s p

/-- The `for box, patch in zip_equal(get_boxes(...), patches)` loop of
`combine`: add the patch into `result` over its box and increment
`counts` there (`counts[slc] += 1`).  A patch that is neither
slice-length nor length 1 (numpy broadcasting) is a broadcast error;
boxes and patches must exhaust simultaneously. -/
def combineLoop : List (ℕ × ℕ) → List (List ℚ) → List ℚ → List ℕ →
    Except String (List ℚ × List ℕ)
  | [], [], r, c => .ok (r, c)
  | (s, e) :: bs, p :: ps, r, c =>
    if p.length = e - s then
      combineLoop bs ps (addSeg r s p) (addSeg c s (List.replicate (e - s) 1))
    else if p.length = 1 then
      combineLoop bs ps (addSeg r s (List.replicate (e - s) (p.getD 0 0)))
        (addSeg c s (List.replicate (e - s) 1))
    else .error "operands could not be broadcast together"
  | _, _, _, _ => .error "The iterables did not exhaust simultaneously."

/-- `combine(patches, output_shape, stride=None)` on one axis.  `peek`
(from the evolving `medim/itertools.py`, not in this snapshot; per the
spec the patch sequence is "possibly lazy, non-empty") yields the first
patch and leaves the sequence intact, raising `StopIteration` when there
is none; a `None` stride defaults to the first patch's shape;
`result`/`counts` start as zeros of `output_shape`; the final array is
`result / np.maximum(1, counts)`. -/
def combine1 (patches : List (List ℚ)) (output_shape : ℕ) (stride? : Option ℕ) :
    Except String (List ℚ) :=
  match patches with
  | [] => .error "StopIteration"
  | patch :: _ =>
    let stride := stride?.getD patch.length
    let boxes := get_boxes1 output_shape patch.length stride false
    match combineLoop boxes patches (List.replicate output_shape 0)
        (List.replicate output_shape 0) with
    | .ok (r, c) => .ok (r.zipWith (fun v k => v / (max 1 k : ℕ)) c)
    | .error e => .error e

theorem combineLoop_length_mismatch :
    ∀ (boxes : List (ℕ × ℕ)) (patches : List (List ℚ)) (r : List ℚ) (c : List ℕ),
      boxes.length ≠ patches.length →
      ∃ e, combineLoop boxes patches r c = .error e := by
  intro boxes
  induction boxes with
  | nil =>
      intro patches r c hne
      cases patches with
      | nil => simp at hne
      | cons p ps => exact ⟨_, rfl⟩
  | cons b bs ih =>
      intro patches r c hne
      cases patches with
      | nil => exact ⟨_, rfl⟩
      | cons p ps =>
          obtain ⟨s, e⟩ := b
          have hne' : bs.length ≠ ps.length := by
            simp only [List.length_cons] at hne
            omega
          by_cases h1 : p.length = e - s
          · obtain ⟨msg, hmsg⟩ := ih ps (addSeg r s p)
              (addSeg c s (List.replicate (e - s) 1)) hne'
            exact ⟨msg, by rw [combineLoop, if_pos h1]; exact hmsg⟩
          · by_cases h2 : p.length = 1
            · obtain ⟨msg, hmsg⟩ := ih ps
                (addSeg r s (List.replicate (e - s) (p.getD 0 0)))
                (addSeg c s (List.replicate (e - s) 1)) hne'
              exact ⟨msg, by rw [combineLoop, if_neg h1, if_pos h2]; exact hmsg⟩
            · exact ⟨_, by rw [combineLoop, if_neg h1, if_neg h2]⟩

/-- C7: `combine` fails whenever the number of patches differs from the
number of boxes generated for `output_shape` (the two sequences must
exhaust simultaneously); an empty patch sequence also fails (`peek`
raises). -/
theorem combine_count_mismatch :
    (∀ (n : ℕ) (stride? : Option ℕ), ∃ e, combine1 [] n stride? = .error e) ∧
    (∀ (patch : List ℚ) (rest : List (List ℚ)) (n : ℕ) (stride? : Option ℕ),
      (patch :: rest).length ≠
        (get_boxes1 n patch.length (stride?.getD patch.length) false).length →
      ∃ e, combine1 (patch :: rest) n stride? = .error e) := by
  constructor
  · intro n stride?
    exact ⟨_, rfl⟩
  · intro patch rest n stride? hne
    obtain ⟨msg, hmsg⟩ := combineLoop_length_mismatch
      (get_boxes1 n patch.length (stride?.getD patch.length) false) (patch :: rest)
      (List.replicate n 0) (List.replicate n 0) (Ne.symm hne)
    refine ⟨msg, ?_⟩
    have hred : combine1 (patch :: rest) n stride? =
        match combineLoop (get_boxes1 n patch.length (stride?.getD patch.length) false)
            (patch :: rest) (List.replicate n 0) (List.replicate n 0) with
        | .ok (r, c) => .ok (r.zipWith (fun v k => v / (max 1 k : ℕ)) c)
        | .error e => .error e := rfl
    rw [hred, hmsg]

/-- C7, witness: a single length-2 patch against `output_shape = 10` with
default stride (5 boxes but 1 patch) fails. -/
theorem combine_count_mismatch_witness :
    ∃ e, combine1 [[1, 2]] 10 none = .error e :=
  combine_count_mismatch.2 [1, 2] [] 10 none (by decide)

/-- C3, counterexample: `combine(divide(x, patch_size=4, stride=2),
output_shape=x.shape)` — with `combine`'s `stride` left at its default —
does *not* reconstruct `x`: `combine` defaults the stride to the patch
size (4), generates the boxes `[0,4),[4,8),[8,10)` for shape 10, and the
third patch (of size 4) fails to broadcast into the clipped slice
`[8,10)`, so the call raises instead of returning an array. -/
theorem combine_divide_default_stride_counterexample :
    combine1 (divide1 [0, 1, 2, 3, 4, 5, 6, 7, 8, 9] 4 2) 10 none =
      .error "operands could not be broadcast together" := by rfl

/-! ### Accumulation: after the loop, `result[j] = x[j] * counts[j]` when
the patches are exact slices of `x`, and `counts[j]` is the number of
boxes covering `j`. -/

/-- The number of boxes covering position `j`. -/
def countCover (boxes : List (ℕ × ℕ)) (j : ℕ) : ℕ :=
  (boxes.filter (fun p => decide (p.1 ≤ j) && decide (j < p.2))).length

theorem countCover_cons (s e : ℕ) (bs : List (ℕ × ℕ)) (j : ℕ) :
    countCover ((s, e) :: bs) j =
      (if s ≤ j ∧ j < e then 1 else 0) + countCover bs j := by
  simp only [countCover, List.filter_cons]
  by_cases h1 : s ≤ j
  · by_cases h2 : j < e
    · simp [h1, h2]
      omega
    · simp [h1, h2]
  · simp [h1]

theorem addLead_length {α : Type u} [Add α] :
    ∀ (r p : List α), (addLead r p).length = r.length := by
  intro r
  induction r with
  | nil => intro p; cases p <;> rfl
  | cons v vs ih =>
      intro p
      cases p with
      | nil => rfl
      | cons q qs => simp [addLead, ih]

theorem addSeg_length {α : Type u} [Add α] :
    ∀ (r : List α) (s : ℕ) (p : List α), (addSeg r s p).length = r.length := by
  intro r
  induction r with
  | nil =>
      intro s p
      cases s with
      | zero => exact addLead_length [] p
      | succ s => rfl
  | cons v vs ih =>
      intro s p
      cases s with
      | zero => exact addLead_length (v :: vs) p
      | succ s => simp [addSeg, ih]

theorem addLead_getD {α : Type u} [Add α] (d : α) :
    ∀ (r p : List α) (j : ℕ), j < r.length →
      (addLead r p).getD j d =
        if j < p.length then r.getD j d + p.getD j d else r.getD j d := by
  intro r
  induction r with
  | nil => intro p j hj; simp at hj
  | cons v vs ih =>
      intro p j hj
      cases p with
      | nil => simp [addLead]
      | cons q qs =>
          cases j with
          | zero => simp [addLead]
          | succ j =>
              simp only [addLead, List.getD_cons_succ, List.length_cons]
              rw [ih qs j (by simpa using hj)]
              exact if_congr (by omega) rfl rfl

theorem addSeg_getD {α : Type u} [Add α] (d : α) :
    ∀ (s : ℕ) (r p : List α) (j : ℕ), j < r.length →
      (addSeg r s p).getD j d =
        if s ≤ j ∧ j < s + p.length then r.getD j d + p.getD (j - s) d
        else r.getD j d := by
  intro s
  induction s with
  | zero =>
      intro r p j hj
      have hz : addSeg r 0 p = addLead r p := by
        cases r with
        | nil => cases p <;> rfl
        | cons v vs => rfl
      rw [hz, addLead_getD d r p j hj]
      exact if_congr (by omega) (by rw [Nat.sub_zero]) rfl
  | succ s ih =>
      intro r p j hj
      cases r with
      | nil => simp at hj
      | cons v vs =>
          cases j with
          | zero =>
              have hcond : ¬ (s + 1 ≤ 0 ∧ 0 < s + 1 + p.length) := by omega
              rw [if_neg hcond]
              rfl
          | succ j =>
              show (v :: addSeg vs s p).getD (j + 1) d = _
              simp only [List.getD_cons_succ]
              rw [ih vs p j (by simpa using hj)]
              have hsub : j - s = j + 1 - (s + 1) := by omega
              exact if_congr (by omega) (by rw [hsub]) rfl

theorem getD_replicate {α : Type u} (a d : α) :
    ∀ (n j : ℕ), j < n → (List.replicate n a).getD j d = a := by
  intro n
  induction n with
  | zero => intro j hj; omega
  | succ n ih =>
      intro j hj
      cases j with
      | zero => rfl
      | succ j => exact ih j (by omega)

theorem slice_getD (x : List ℚ) (s e j : ℕ) (hsj : s ≤ j) (hje : j < e)
    (heL : e ≤ x.length) :
    ((x.drop s).take (e - s)).getD (j - s) 0 = x.getD j 0 := by
  have hlen : ((x.drop s).take (e - s)).length = e - s := by
    simp only [List.length_take, List.length_drop]
    omega
  have h1 : j - s < ((x.drop s).take (e - s)).length := by omega
  have h2 : j < x.length := by omega
  rw [List.getD_eq_getElem _ _ h1, List.getD_eq_getElem _ _ h2]
  rw [List.getElem_take, List.getElem_drop]
  congr 1
  omega

theorem sliceBox_getD (x : List ℚ) (s e j : ℕ) (hsj : s ≤ j) (hje : j < e)
    (heL : e ≤ x.length) :
    (sliceBox x (s, e)).getD (j - s) 0 = x.getD j 0 :=
  slice_getD x s e j hsj hje heL

theorem combineLoop_slices (x : List ℚ) :
    ∀ (boxes : List (ℕ × ℕ)) (r : List ℚ) (c : List ℕ),
      (∀ b ∈ boxes, b.2 ≤ x.length) →
      r.length = x.length → c.length = x.length →
      ∃ r' c',
        combineLoop boxes (boxes.map (sliceBox x)) r c
          = .ok (r', c') ∧
        r'.length = x.length ∧ c'.length = x.length ∧
        (∀ j, j < x.length →
          r'.getD j 0 = r.getD j 0 + x.getD j 0 * (countCover boxes j : ℚ) ∧
          c'.getD j 0 = c.getD j 0 + countCover boxes j) := by
  intro boxes
  induction boxes with
  | nil =>
      intro r c _ hr hc
      exact ⟨r, c, rfl, hr, hc, fun j _ => by simp [countCover]⟩
  | cons b bs ih =>
      obtain ⟨s, e⟩ := b
      intro r c hb hr hc
      have heL : e ≤ x.length := hb (s, e) (by simp)
      have hplen : (sliceBox x (s, e)).length = e - s := by
        simp only [sliceBox, List.length_take, List.length_drop]
        omega
      obtain ⟨r', c', hloop, hr', hc', hval⟩ :=
        ih (addSeg r s (sliceBox x (s, e)))
          (addSeg c s (List.replicate (e - s) 1))
          (fun b' hb' => hb b' (by simp [hb']))
          (by rw [addSeg_length]; exact hr)
          (by rw [addSeg_length]; exact hc)
      refine ⟨r', c', ?_, hr', hc', ?_⟩
      · simp only [List.map_cons]
        rw [combineLoop, if_pos hplen]
        exact hloop
      · intro j hj
        obtain ⟨h1, h2⟩ := hval j hj
        rw [h1, h2]
        rw [addSeg_getD 0 s r _ j (by omega)]
        rw [addSeg_getD 0 s c _ j (by omega)]
        rw [countCover_cons]
        rw [hplen, List.length_replicate]
        by_cases hcov : s ≤ j ∧ j < e
        · have hcov' : s ≤ j ∧ j < s + (e - s) := by omega
          rw [if_pos hcov', if_pos hcov', if_pos hcov]
          rw [sliceBox_getD x s e j hcov.1 hcov.2 heL]
          rw [getD_replicate 1 0 (e - s) (j - s) (by omega)]
          constructor
          · push_cast
            ring
          · omega
        · have hcov' : ¬ (s ≤ j ∧ j < s + (e - s)) := by omega
          rw [if_neg hcov', if_neg hcov', if_neg hcov]
          constructor
          · push_cast
            ring
          · omega

theorem numBoxes_false_pos (s b st : ℕ) : 0 < numBoxes s b st false := by
  simp only [numBoxes, Bool.false_eq_true, if_false]
  split
  · exact Nat.succ_pos _
  · exact Nat.one_pos

theorem get_boxes1_stop_le (s b st : ℕ) (v : Bool) :
    ∀ p ∈ get_boxes1 s b st v, p.2 ≤ s := by
  intro p hp
  rcases List.mem_map.1 hp with ⟨i, _, rfl⟩
  exact Nat.min_le_right _ _

/-- With `valid=False`, a stride not exceeding the box size and the
divisibility guaranteed by padding, every position of the output is
covered by at least one box. -/
theorem covered_of_le (L patch stride : ℕ) (hst : 0 < stride) (hsp : stride ≤ patch)
    (hple : patch ≤ L) (hdvd : (L - patch) % stride = 0) (j : ℕ) (hj : j < L) :
    0 < countCover (get_boxes1 L patch stride false) j := by
  set m := (L - patch) / stride with hm
  have hdvd' : stride ∣ (L - patch) := Nat.dvd_of_mod_eq_zero hdvd
  have hmul : stride * m = L - patch := Nat.mul_div_cancel' hdvd'
  have hN : numBoxes L patch stride false = m + 1 := by
    simp only [numBoxes, Bool.false_eq_true, if_false, if_pos hple]
    have h1 : L - patch + stride - 1 = stride * m + (stride - 1) := by omega
    rw [h1, Nat.mul_add_div hst]
    have h2 : (stride - 1) / stride = 0 := Nat.div_eq_of_lt (by omega)
    omega
  have hexists : ∃ i, i < m + 1 ∧ i * stride ≤ j ∧ j < i * stride + patch := by
    by_cases hq : j / stride ≤ m
    · refine ⟨j / stride, by omega, Nat.div_mul_le_self j stride, ?_⟩
      have h1 := Nat.div_add_mod j stride
      have h2 := Nat.mod_lt j hst
      have h3 : j / stride * stride = stride * (j / stride) := Nat.mul_comm _ _
      omega
    · refine ⟨m, by omega, ?_, ?_⟩
      · have h1 : (m + 1) * stride ≤ j := by
          have h2 := (Nat.le_div_iff_mul_le hst).1 (by omega : m + 1 ≤ j / stride)
          omega
        have h3 : (m + 1) * stride = m * stride + stride := by ring
        have h4 : m * stride = stride * m := Nat.mul_comm _ _
        omega
      · have h4 : m * stride = stride * m := Nat.mul_comm _ _
        omega
  obtain ⟨i, hiN, hi1, hi2⟩ := hexists
  have hbox : (i * stride, min (i * stride + patch) L) ∈
      get_boxes1 L patch stride false := by
    rw [get_boxes1, hN]
    exact List.mem_map.2 ⟨i, List.mem_range.2 (by omega), rfl⟩
  have hcond : (fun (p : ℕ × ℕ) => decide (p.1 ≤ j) && decide (j < p.2))
      (i * stride, min (i * stride + patch) L) = true := by
    simp only [Bool.and_eq_true, decide_eq_true_eq]
    exact ⟨hi1, lt_min hi2 hj⟩
  have hmem : (i * stride, min (i * stride + patch) L) ∈
      (get_boxes1 L patch stride false).filter
        (fun p => decide (p.1 ≤ j) && decide (j < p.2)) :=
    List.mem_filter.2 ⟨hbox, hcond⟩
  rw [countCover]
  exact List.length_pos.2 (List.ne_nil_of_mem hmem)

theorem ext_getD_q (l1 l2 : List ℚ) (h : l1.length = l2.length)
    (hv : ∀ j, j < l1.length → l1.getD j 0 = l2.getD j 0) : l1 = l2 := by
  induction l1 generalizing l2 with
  | nil =>
      cases l2 with
      | nil => rfl
      | cons b bs => simp at h
  | cons a as ih =>
      cases l2 with
      | nil => simp at h
      | cons b bs =>
          have h0 : a = b := hv 0 (by simp)
          have htail : as = bs := by
            refine ih bs (by simpa using h) (fun j hj => ?_)
            simpa [List.getD_cons_succ] using hv (j + 1) (by simpa using hj)
          rw [h0, htail]

theorem getD_zipWith_div (r : List ℚ) (c : List ℕ) :
    ∀ (j : ℕ), j < (List.zipWith (fun (v : ℚ) (k : ℕ) => v / (max 1 k : ℕ)) r c).length →
      (List.zipWith (fun (v : ℚ) (k : ℕ) => v / (max 1 k : ℕ)) r c).getD j 0 =
        r.getD j 0 / ((max 1 (c.getD j 0) : ℕ) : ℚ) := by
  induction r generalizing c with
  | nil => intro j hj; simp at hj
  | cons a as ih =>
      intro j hj
      cases c with
      | nil => simp at hj
      | cons k ks =>
          cases j with
          | zero => simp
          | succ j =>
              simp only [List.zipWith_cons_cons, List.length_cons] at hj
              simpa [List.getD_cons_succ] using ih ks j (by omega)

/-- When every patch is the exact slice of `x` at its box and every
position is covered, the tail of `combine` (the loop plus the final
division by `max(1, counts)`) returns exactly `x`. -/
theorem combineResult_slices (x : List ℚ) (boxes : List (ℕ × ℕ))
    (hstop : ∀ b ∈ boxes, b.2 ≤ x.length)
    (hcov : ∀ j, j < x.length → 0 < countCover boxes j) :
    (match combineLoop boxes (boxes.map (sliceBox x))
        (List.replicate x.length 0) (List.replicate x.length 0) with
      | Except.ok (r, c) =>
          Except.ok (r.zipWith (fun (v : ℚ) (k : ℕ) => v / (max 1 k : ℕ)) c)
      | Except.error e => (Except.error e : Except String (List ℚ))) = .ok x := by
  obtain ⟨r', c', hloop, hr', hc', hval⟩ :=
    combineLoop_slices x boxes (List.replicate x.length 0)
      (List.replicate x.length 0) hstop (by simp) (by simp)
  rw [hloop]
  refine congrArg Except.ok ?_
  have hlen : (List.zipWith (fun (v : ℚ) (k : ℕ) => v / (max 1 k : ℕ)) r' c').length
      = x.length := by
    rw [List.length_zipWith, hr', hc']
    exact Nat.min_self _
  refine ext_getD_q _ _ hlen (fun j hj => ?_)
  have hjx : j < x.length := by omega
  rw [getD_zipWith_div r' c' j hj]
  obtain ⟨hv1, hv2⟩ := hval j hjx
  rw [getD_replicate (0 : ℚ) 0 x.length j hjx, zero_add] at hv1
  rw [getD_replicate (0 : ℕ) 0 x.length j hjx, zero_add] at hv2
  rw [hv1, hv2]
  have hcc := hcov j hjx
  rw [Nat.max_eq_right (by omega : 1 ≤ countCover boxes j)]
  have hne : ((countCover boxes j : ℕ) : ℚ) ≠ 0 := by
    exact_mod_cast Nat.pos_iff_ne_zero.1 hcc
  rw [mul_div_assoc, div_self hne, mul_one]

/-- `combine` applied to a non-empty patch sequence, reduced. -/
theorem combine1_cons (p0 : List ℚ) (ps : List (List ℚ)) (n st : ℕ) :
    combine1 (p0 :: ps) n (some st) =
      match combineLoop (get_boxes1 n p0.length st false) (p0 :: ps)
          (List.replicate n 0) (List.replicate n 0) with
      | Except.ok (r, c) =>
          Except.ok (r.zipWith (fun (v : ℚ) (k : ℕ) => v / (max 1 k : ℕ)) c)
      | Except.error e => Except.error e := rfl

/-- `combine(divide(x, patch, stride), x.shape, stride)` reconstructs `x`
whenever `0 < stride ≤ patch` and the length is compatible with the stride
(as arranged by `patches_grid`'s padding). -/
theorem combine_divide_reconstruct (x : List ℚ) (patch stride : ℕ)
    (hst : 0 < stride) (hsp : stride ≤ patch)
    (hdvd : patch ≤ x.length → (x.length - patch) % stride = 0) :
    combine1 (divide1 x patch stride) x.length (some stride) = .ok x := by
  have hpos := numBoxes_false_pos x.length patch stride
  obtain ⟨N, hN⟩ : ∃ N, numBoxes x.length patch stride false = N + 1 :=
    ⟨numBoxes x.length patch stride false - 1, by omega⟩
  have hb : get_boxes1 x.length patch stride false =
      (0, min patch x.length) ::
        ((List.range N).map Nat.succ).map
          (fun i => (i * stride, min (i * stride + patch) x.length)) := by
    rw [get_boxes1, hN, List.range_succ_eq_map, List.map_cons, List.map_map]
    refine congrArg₂ _ (by simp) rfl
  have hdiv : divide1 x patch stride =
      sliceBox x (0, min patch x.length) ::
        (((List.range N).map Nat.succ).map
          (fun i => (i * stride, min (i * stride + patch) x.length))).map
          (sliceBox x) := by
    rw [divide1, hb, List.map_cons]
  have hheadlen : (sliceBox x (0, min patch x.length)).length = min patch x.length := by
    simp only [sliceBox, List.length_take, List.length_drop]
    omega
  by_cases hple : patch ≤ x.length
  · have hmin : min patch x.length = patch := Nat.min_eq_left hple
    rw [hmin] at hb hdiv hheadlen
    rw [hdiv, combine1_cons, hheadlen]
    rw [← List.map_cons, ← hb]
    exact combineResult_slices x (get_boxes1 x.length patch stride false)
      (get_boxes1_stop_le _ _ _ _)
      (fun j hj => covered_of_le x.length patch stride hst hsp hple (hdvd hple) j hj)
  · have hmin : min patch x.length = x.length := Nat.min_eq_right (by omega)
    have hboxesB : get_boxes1 x.length x.length stride false = [(0, x.length)] := by
      rw [get_boxes1]
      have h1 : numBoxes x.length x.length stride false = 1 := by
        simp only [numBoxes, Bool.false_eq_true, if_false, if_pos (le_refl x.length)]
        have h2 : x.length - x.length + stride - 1 = stride - 1 := by omega
        rw [h2, Nat.div_eq_of_lt (by omega)]
      rw [h1, show List.range 1 = [0] from rfl]
      simp
    have hboxesA : get_boxes1 x.length patch stride false = [(0, x.length)] := by
      have h1 : N = 0 := by
        have h2 : numBoxes x.length patch stride false = 1 := by
          simp only [numBoxes, Bool.false_eq_true, if_false, if_neg hple]
        omega
      rw [hb, h1, hmin]
      simp
    have hdivB : divide1 x patch stride = [sliceBox x (0, x.length)] := by
      rw [divide1, hboxesA, List.map_cons, List.map_nil]
    have hheadB : (sliceBox x (0, x.length)).length = x.length := by
      simp only [sliceBox, List.length_take, List.length_drop]
      omega
    rw [hdivB, combine1_cons, hheadB, hboxesB]
    have hpack : [sliceBox x (0, x.length)] =
        [((0 : ℕ), x.length)].map (sliceBox x) := rfl
    rw [hpack]
    refine combineResult_slices x [(0, x.length)] ?_ ?_
    · intro b hbm
      rcases List.mem_singleton.1 hbm with rfl
      exact le_refl _
    · intro j hj
      rw [countCover_cons]
      rw [if_pos ⟨Nat.zero_le j, hj⟩]
      omega

/-- C3 (amended): for every 1-D array `x` of length 10,
`combine(divide(x, patch_size=4, stride=2), output_shape=x.shape,
stride=2)` — i.e. with the dividing stride also passed to `combine`,
which the default (stride = patch size) does not do — reconstructs `x`:
exactly at the positions covered by one patch and as the average of the
(identical) contributions at positions covered by two patches.  The
division is by `max(1, count)`, and positions never covered by any patch
remain zero, as in `combine([[5],[7]], output_shape=(4,), stride=3) =
[5,0,0,7]`. -/
theorem combine_divide_identity :
    (∀ x : List ℚ, x.length = 10 →
      combine1 (divide1 x 4 2) 10 (some 2) = .ok x) ∧
    combine1 [[5], [7]] 4 (some 3) = .ok [5, 0, 0, 7] := by
  constructor
  · intro x hx
    have h := combine_divide_reconstruct x 4 2 (by norm_num) (by norm_num)
      (by rw [hx]; intro _; norm_num)
    rw [hx] at h
    exact h
  · norm_num [combine1, get_boxes1, numBoxes, combineLoop, addSeg, addLead,
      sliceBox, List.range_succ, List.replicate]

/-- C3, witness: the amended reconstruction applied to `x = [0,…,9]`. -/
theorem combine_divide_identity_witness :
    combine1 (divide1 [0, 1, 2, 3, 4, 5, 6, 7, 8, 9] 4 2) 10 (some 2) =
      .ok [0, 1, 2, 3, 4, 5, 6, 7, 8, 9] :=
  combine_divide_identity.1 [0, 1, 2, 3, 4, 5, 6, 7, 8, 9] (by rfl)

/-! ## `patches_grid`: `predict/shape.py`

`patches_grid(patch_size, stride, axes=None, padding_values, ratio)`
wraps a prediction function: when `padding_values` is not `None` the
input is padded to `new_shape = shape + (stride - shape + patch_size) %
stride` (numpy integer arithmetic), divided, predicted patch by patch,
combined with the same stride, and the prediction is cropped back to the
original shape.
-/

/-- Modelled from the spec: the split of a pad amount `d` between the two
sides of an axis — "`ratio` controls how the padding amount is split
between the leading and trailing side of each axis (0 = all trailing,
1 = all leading, 0.5 = split evenly, rounding toward the leading side)":
the leading side receives `⌈d·ratio⌉`. -/
def leadAmount (d : ℕ) (ratio : ℚ) : ℕ := (⌈(d : ℚ) * ratio⌉).toNat

/-- Modelled from the spec: `pad_to_shape` (from `medim/shape_ops.py`, not
in this snapshot) pads `x` with `padVal` up to length `newLen`, splitting
the amount per `ratio`. -/
def pad_to_shape (x : List ℚ) (newLen : ℕ) (padVal : ℚ) (ratio : ℚ) : List ℚ :=
  let d := newLen - x.length
  let lead := leadAmount d ratio
  List.replicate lead padVal ++ x ++ List.replicate (d - lead) padVal

/-- Modelled from the spec: `crop_to_shape` (from `medim/shape_ops.py`, not
in this snapshot) removes a pad again: it keeps the `newLen`-long segment
that starts after the leading amount computed with the same `ratio`. -/
def crop_to_shape (x : List ℚ) (newLen : ℕ) (ratio : ℚ) : List ℚ :=
  (x.drop (leadAmount (x.length - newLen) ratio)).take newLen

/-- `new_shape = shape + (stride - shape + patch_size) % stride`, computed
in `ℤ` as numpy does (the summand can be negative before the modulo). -/
def paddedShape (shape patch stride : ℕ) : ℕ :=
  shape + (((stride : ℤ) - shape + patch) % stride).toNat

/-- `patches_grid(patch_size, stride, padding_values, ratio)` applied to
`predict` and `x`, one axis. -/
def patches_grid (patch stride : ℕ) (padding_values : Option ℚ) (ratio : ℚ)
    (predict : List ℚ → List ℚ) (x : List ℚ) : Except String (List ℚ) :=
  let valid := padding_values.isSome
  let x1 := if valid then
      pad_to_shape x (paddedShape x.length patch stride) (padding_values.getD 0) ratio
    else x
  let patches := (divide1 x1 patch stride).map predict
  match combine1 patches x1.length (some stride) with
  | .ok pred => .ok (if valid then crop_to_shape pred x.length ratio else pred)
  | .error e => .error e

theorem leadAmount_le (d : ℕ) (ratio : ℚ) (h1 : ratio ≤ 1) : leadAmount d ratio ≤ d := by
  rw [leadAmount]
  have h2 : (d : ℚ) * ratio ≤ (d : ℚ) := by
    calc (d : ℚ) * ratio ≤ (d : ℚ) * 1 :=
          mul_le_mul_of_nonneg_left h1 (by positivity)
      _ = d := mul_one _
  have h3 : ⌈(d : ℚ) * ratio⌉ ≤ (d : ℤ) := by
    calc ⌈(d : ℚ) * ratio⌉ ≤ ⌈(d : ℚ)⌉ := Int.ceil_le_ceil h2
      _ = d := Int.ceil_natCast d
  exact Int.toNat_le.2 h3

theorem pad_to_shape_length (x : List ℚ) (newLen : ℕ) (pv ratio : ℚ)
    (h : x.length ≤ newLen) (hratio : ratio ≤ 1) :
    (pad_to_shape x newLen pv ratio).length = newLen := by
  have hlead := leadAmount_le (newLen - x.length) ratio hratio
  simp only [pad_to_shape, List.length_append, List.length_replicate]
  omega

theorem paddedShape_le (L patch stride : ℕ) : L ≤ paddedShape L patch stride :=
  Nat.le_add_right _ _

theorem paddedShape_dvd (L patch stride : ℕ) (hst : 0 < stride)
    (hple : patch ≤ paddedShape L patch stride) :
    (paddedShape L patch stride - patch) % stride = 0 := by
  have hstz : (stride : ℤ) ≠ 0 := by exact_mod_cast hst.ne'
  have hr0 : 0 ≤ ((stride : ℤ) - L + patch) % stride :=
    Int.emod_nonneg _ hstz
  have hL' : ((paddedShape L patch stride : ℕ) : ℤ) =
      L + ((stride : ℤ) - L + patch) % stride := by
    rw [paddedShape]
    push_cast [Int.toNat_of_nonneg hr0]
    ring
  have hdvd : (stride : ℤ) ∣ ((paddedShape L patch stride : ℕ) : ℤ) - patch := by
    rw [hL']
    have hmod : ((stride : ℤ) - L + patch) % stride =
        (stride : ℤ) - L + patch - stride * (((stride : ℤ) - L + patch) / stride) :=
      Int.emod_def _ _
    refine ⟨1 - ((stride : ℤ) - L + patch) / stride, ?_⟩
    rw [hmod]
    ring
  have hcast : ((paddedShape L patch stride - patch : ℕ) : ℤ) =
      ((paddedShape L patch stride : ℕ) : ℤ) - patch := by
    push_cast [Nat.cast_sub hple]
    ring
  have hdvd2 : stride ∣ (paddedShape L patch stride - patch) := by
    have h := hdvd
    rw [← hcast] at h
    exact_mod_cast h
  obtain ⟨k, hk⟩ := hdvd2
  rw [hk, Nat.mul_mod_right]

theorem crop_pad (x : List ℚ) (newLen : ℕ) (pv ratio : ℚ)
    (h : x.length ≤ newLen) (hratio : ratio ≤ 1) :
    crop_to_shape (pad_to_shape x newLen pv ratio) x.length ratio = x := by
  rw [crop_to_shape, pad_to_shape_length x newLen pv ratio h hratio]
  simp only [pad_to_shape]
  rw [List.append_assoc]
  have hdrop := List.drop_left
    (List.replicate (leadAmount (newLen - x.length) ratio) pv)
    (x ++ List.replicate (newLen - x.length - leadAmount (newLen - x.length) ratio) pv)
  rw [List.length_replicate] at hdrop
  rw [hdrop]
  exact List.take_left x _

theorem crop_length (p : List ℚ) (newLen : ℕ) (ratio : ℚ)
    (h : newLen + leadAmount (p.length - newLen) ratio ≤ p.length) :
    (crop_to_shape p newLen ratio).length = newLen := by
  simp only [crop_to_shape, List.length_take, List.length_drop]
  omega

theorem combineLoop_ok_of_fit :
    ∀ (boxes : List (ℕ × ℕ)) (patches : List (List ℚ)) (r : List ℚ) (c : List ℕ),
      List.Forall₂ (fun (b : ℕ × ℕ) (p : List ℚ) => p.length = b.2 - b.1)
        boxes patches →
      ∃ r' c', combineLoop boxes patches r c = .ok (r', c') ∧
        r'.length = r.length ∧ c'.length = c.length := by
  intro boxes
  induction boxes with
  | nil =>
      intro patches r c hf
      cases hf
      exact ⟨r, c, rfl, rfl, rfl⟩
  | cons b bs ih =>
      intro patches r c hf
      cases hf with
      | cons h1 h2 =>
          obtain ⟨s, e⟩ := b
          obtain ⟨r', c', hl, hr, hc⟩ := ih _ (addSeg r s _)
            (addSeg c s (List.replicate (e - s) 1)) h2
          exact ⟨r', c', by rw [combineLoop, if_pos h1]; exact hl,
            by rw [hr, addSeg_length], by rw [hc, addSeg_length]⟩

theorem forall₂_boxes_slices (x1 : List ℚ) (f : List ℚ → List ℚ)
    (hf : ∀ p, (f p).length = p.length) :
    ∀ boxes : List (ℕ × ℕ), (∀ b ∈ boxes, b.2 ≤ x1.length) →
      List.Forall₂ (fun (b : ℕ × ℕ) (p : List ℚ) => p.length = b.2 - b.1)
        boxes ((boxes.map (sliceBox x1)).map f) := by
  intro boxes
  induction boxes with
  | nil => intro _; simp
  | cons b bs ih =>
      intro hb
      simp only [List.map_cons]
      refine List.Forall₂.cons ?_ (ih (fun b' h => hb b' (by simp [h])))
      rw [hf]
      obtain ⟨s, e⟩ := b
      have hse := hb (s, e) (by simp)
      simp only [sliceBox, List.length_take, List.length_drop]
      exact Nat.min_eq_left (by omega)

theorem get_boxes1_self (L stride : ℕ) (hst : 0 < stride) :
    get_boxes1 L L stride false = [(0, L)] := by
  rw [get_boxes1]
  have h1 : numBoxes L L stride false = 1 := by
    simp only [numBoxes, Bool.false_eq_true, if_false, if_pos (le_refl L)]
    have h2 : L - L + stride - 1 = stride - 1 := by omega
    rw [h2, Nat.div_eq_of_lt (by omega)]
  rw [h1, show List.range 1 = [0] from rfl]
  simp

theorem get_boxes1_oversize (L patch stride : ℕ) (hple : ¬ patch ≤ L) :
    get_boxes1 L patch stride false = [(0, L)] := by
  rw [get_boxes1]
  have h1 : numBoxes L patch stride false = 1 := by
    simp only [numBoxes, Bool.false_eq_true, if_false, if_neg hple]
  rw [h1, show List.range 1 = [0] from rfl]
  simp only [List.map_cons, List.map_nil, Nat.zero_mul, Nat.zero_add]
  rw [Nat.min_eq_right (by omega)]

/-- `combine` over the predicted patches of a division of `x1` succeeds and
yields an array of `x1`'s length, for every length-preserving prediction. -/
theorem combine1_ok_of_shape (x1 : List ℚ) (patch stride : ℕ)
    (f : List ℚ → List ℚ) (hst : 0 < stride) (hf : ∀ p, (f p).length = p.length) :
    ∃ y, combine1 ((divide1 x1 patch stride).map f) x1.length (some stride) = .ok y ∧
      y.length = x1.length := by
  have hpos := numBoxes_false_pos x1.length patch stride
  obtain ⟨N, hN⟩ : ∃ N, numBoxes x1.length patch stride false = N + 1 :=
    ⟨numBoxes x1.length patch stride false - 1, by omega⟩
  have hb : get_boxes1 x1.length patch stride false =
      (0, min patch x1.length) ::
        ((List.range N).map Nat.succ).map
          (fun i => (i * stride, min (i * stride + patch) x1.length)) := by
    rw [get_boxes1, hN, List.range_succ_eq_map, List.map_cons, List.map_map]
    refine congrArg₂ _ (by simp) rfl
  have hdivf : (divide1 x1 patch stride).map f =
      f (sliceBox x1 (0, min patch x1.length)) ::
        ((((List.range N).map Nat.succ).map
          (fun i => (i * stride, min (i * stride + patch) x1.length))).map
          (sliceBox x1)).map f := by
    rw [divide1, hb, List.map_cons, List.map_cons]
  have hheadlen : (f (sliceBox x1 (0, min patch x1.length))).length
      = min patch x1.length := by
    rw [hf]
    simp only [sliceBox, List.length_take, List.length_drop]
    omega
  have hcombboxes : get_boxes1 x1.length (min patch x1.length) stride false
      = get_boxes1 x1.length patch stride false := by
    by_cases hple : patch ≤ x1.length
    · rw [Nat.min_eq_left hple]
    · rw [Nat.min_eq_right (by omega), get_boxes1_self x1.length stride hst,
        get_boxes1_oversize x1.length patch stride hple]
  rw [hdivf, combine1_cons, hheadlen, hcombboxes]
  rw [← List.map_cons, ← List.map_cons, ← hb]
  obtain ⟨r', c', hloop, hr, hc⟩ := combineLoop_ok_of_fit
    (get_boxes1 x1.length patch stride false)
    (((get_boxes1 x1.length patch stride false).map (sliceBox x1)).map f)
    (List.replicate x1.length 0) (List.replicate x1.length 0)
    (forall₂_boxes_slices x1 f hf _ (get_boxes1_stop_le _ _ _ _))
  rw [hloop]
  refine ⟨_, rfl, ?_⟩
  rw [List.length_zipWith, hr, hc]
  simp

/-- C8, counterexample: the wrapper does not return an array of `x`'s
extent for *every* prediction function: a prediction that does not
preserve the patch shape (here, one returning `[]` for every patch) makes
the inner `combine` raise, so no array is returned at all. -/
theorem patches_grid_shape_counterexample :
    patches_grid 4 2 (some 0) (1 / 2) (fun _ => [])
      [0, 1, 2, 3, 4, 5, 6, 7, 8, 9] =
      .error "The iterables did not exhaust simultaneously." := by
  norm_num [patches_grid, pad_to_shape, leadAmount, paddedShape, divide1, combine1,
    get_boxes1, numBoxes, combineLoop, addSeg, addLead, sliceBox,
    List.range_succ, List.replicate]

/-- C8 (amended): for every input `x` and every *shape-preserving*
prediction function, with `0 < stride ≤ patch_size`, `0 ≤ ratio ≤ 1` and
`padding_values` not `None`: the wrapper pads `x` up to the next valid
multiple of `stride` (the padded length is at least `x`'s and makes the
division exact, the pad split per `ratio`), divides, predicts per patch,
combines and crops back, returning an array of the same extent as `x`;
with the identity prediction it reproduces `x` exactly.  (As stated over
arbitrary prediction functions the claim fails, and it also needs
`stride ≤ patch_size` — for `stride > patch_size` the boxes leave gaps
that reconstruct as zeros.) -/
theorem patches_grid_shape_identity :
    ∀ (x : List ℚ) (patch stride : ℕ) (pv ratio : ℚ) (f : List ℚ → List ℚ),
      0 < stride → stride ≤ patch → 0 ≤ ratio → ratio ≤ 1 →
      (∀ p, (f p).length = p.length) →
      (x.length ≤ paddedShape x.length patch stride ∧
        (patch ≤ paddedShape x.length patch stride →
          (paddedShape x.length patch stride - patch) % stride = 0)) ∧
      (∃ y, patches_grid patch stride (some pv) ratio f x = .ok y ∧
        y.length = x.length) ∧
      patches_grid patch stride (some pv) ratio (fun p => p) x = .ok x := by
  intro x patch stride pv ratio f hst hsp hr0 hr1 hf
  have hLle : x.length ≤ paddedShape x.length patch stride :=
    paddedShape_le x.length patch stride
  have hx1len : (pad_to_shape x (paddedShape x.length patch stride) pv ratio).length
      = paddedShape x.length patch stride :=
    pad_to_shape_length x _ pv ratio hLle hr1
  have hred : ∀ (g : List ℚ → List ℚ),
      patches_grid patch stride (some pv) ratio g x =
        match combine1
            ((divide1 (pad_to_shape x (paddedShape x.length patch stride) pv ratio)
              patch stride).map g)
            (pad_to_shape x (paddedShape x.length patch stride) pv ratio).length
            (some stride) with
        | .ok pred => .ok (crop_to_shape pred x.length ratio)
        | .error e => .error e := fun g => rfl
  refine ⟨⟨hLle, fun hple => paddedShape_dvd x.length patch stride hst hple⟩, ?_, ?_⟩
  · obtain ⟨y0, hy0, hy0len⟩ := combine1_ok_of_shape
      (pad_to_shape x (paddedShape x.length patch stride) pv ratio)
      patch stride f hst hf
    rw [hred f, hy0]
    refine ⟨crop_to_shape y0 x.length ratio, rfl, ?_⟩
    apply crop_length
    rw [hy0len, hx1len]
    have hlead := leadAmount_le (paddedShape x.length patch stride - x.length) ratio hr1
    omega
  · have hdvd1 : patch ≤
        (pad_to_shape x (paddedShape x.length patch stride) pv ratio).length →
        ((pad_to_shape x (paddedShape x.length patch stride) pv ratio).length
          - patch) % stride = 0 := by
      rw [hx1len]
      exact fun hple => paddedShape_dvd x.length patch stride hst hple
    have hcomb := combine_divide_reconstruct
      (pad_to_shape x (paddedShape x.length patch stride) pv ratio)
      patch stride hst hsp hdvd1
    have hid : (divide1 (pad_to_shape x (paddedShape x.length patch stride) pv ratio)
        patch stride).map (fun p => p) =
        divide1 (pad_to_shape x (paddedShape x.length patch stride) pv ratio)
          patch stride := List.map_id' _
    rw [hred (fun p => p), hid, hcomb]
    show Except.ok (crop_to_shape
      (pad_to_shape x (paddedShape x.length patch stride) pv ratio) x.length ratio)
      = Except.ok x
    exact congrArg Except.ok
      (crop_pad x (paddedShape x.length patch stride) pv ratio hLle hr1)

/-- C8, witness: the amended theorem applied to `x = [0,1,2,3]`,
`patch_size = 4`, `stride = 2`, zero padding, `ratio = 1/2` and the
identity prediction. -/
theorem patches_grid_shape_identity_witness :
    (([0, 1, 2, 3] : List ℚ).length ≤ paddedShape ([0, 1, 2, 3] : List ℚ).length 4 2 ∧
      (4 ≤ paddedShape ([0, 1, 2, 3] : List ℚ).length 4 2 →
        (paddedShape ([0, 1, 2, 3] : List ℚ).length 4 2 - 4) % 2 = 0)) ∧
    (∃ y, patches_grid 4 2 (some 0) (1 / 2) (fun p => p) [0, 1, 2, 3] = .ok y ∧
      y.length = ([0, 1, 2, 3] : List ℚ).length) ∧
    patches_grid 4 2 (some 0) (1 / 2) (fun p => p) [0, 1, 2, 3] = .ok [0, 1, 2, 3] :=
  patches_grid_shape_identity [0, 1, 2, 3] 4 2 0 (1 / 2) (fun p => p)
    (by norm_num) (by norm_num) (by norm_num) (by norm_num) (fun p => rfl)

end DPipe
